import Mathlib

/-!
Verification of the Ed25519 protocol layer (`src/ed25519.rs`).

Bytes are modelled as natural numbers below 256, byte strings as `List Nat`.
The protocol layer (`check_lt_l`, clamping, `KeyPair::from_seed`,
`SecretKey::sign`, `PublicKey::verify`) is translated from `src/ed25519.rs`.
The collaborators this file cannot translate from source (the `curve25519`,
`sha512` and `error` modules are not part of the sources) are modelled from
the specification, each marked `Modelled from the spec:` in its doc comment.
-/

set_option maxRecDepth 100000

namespace Ed25519

/-- The group order `L = 2^252 + 27742317777372353535851937790883648493`
(spec section 4.2); the byte string `Lbytes` below is its source-level form. -/
def L : Nat := 2 ^ 252 + 27742317777372353535851937790883648493

instance : NeZero L := ⟨by decide⟩

/-- The value of a byte string read as a little-endian integer. -/
def leBytes (xs : List Nat) : Nat := xs.foldr (fun b acc => b + 256 * acc) 0

/-- The `k`-byte little-endian encoding of `n` (truncating above `256 ^ k`). -/
def natToBytes : Nat → Nat → List Nat
  | 0, _ => []
  | k + 1, n => n % 256 :: natToBytes k (n / 256)

/-- Modelled from the spec: the recoverable error kinds of section 7; the
`error` module of the repository is not under `src/`. -/
inductive Error where
  | InvalidPublicKey
  | WeakPublicKey
  | NoncanonicalSignature
  | SignatureMismatch
  deriving DecidableEq

/-- Modelled from the spec: the SHA-512 digest collaborator (section 4.1);
the `sha512` module of the repository is not under `src/`.  Any deterministic
function from byte sequences to 64-byte digests; the fields record that the
output has 64 bytes, each below 256. -/
structure HashFn where
  f : List Nat → List Nat
  len_eq : ∀ x, (f x).length = 64
  bytes_lt : ∀ x, ∀ b ∈ f x, b < 256

/-- Modelled from the spec: a group element of the order-`L` subgroup
generated by the base point `B` (section 4.3), represented by its discrete
logarithm with respect to `B`; the `curve25519` module of the repository is
not under `src/`. -/
abbrev Element : Type := ZMod L

/-- Modelled from the spec: `scalar_mult_base` (section 4.3), `s · B`. -/
def ge_scalarmult_base (s : List Nat) : Element := (leBytes s : ZMod L)

/-- Modelled from the spec: the canonical compression `encode` (section 4.3). -/
def encodeElt (e : Element) : List Nat := natToBytes 32 (ZMod.val e)

/-- Modelled from the spec: `decode_negated` (section 4.3): decompresses a
32-byte encoding into the negation of the represented point, failing on
byte strings that encode no point. -/
def from_bytes_negate_vartime (bytes : List Nat) : Option Element :=
  if leBytes bytes < L then some (-((leBytes bytes : Nat) : ZMod L)) else none

/-- Modelled from the spec: `is_identity` (section 4.3): detects the encoding
of the neutral element. -/
def is_identity (bytes : List Nat) : Bool := bytes == encodeElt 0

/-- Modelled from the spec: `double_scalar_mult_public` (section 4.3):
`h · P + s · B` for the element `P` passed (verification passes the negated
public key, so the result is `s · B - h · A`). -/
def double_scalarmult_vartime (h : List Nat) (p : Element) (s : List Nat) : Element :=
  (leBytes h : ZMod L) * p + (leBytes s : ZMod L)

/-- Modelled from the spec: `sc_reduce` (the `reduce` of section 4.2) followed
by reading the 32 output bytes, which is how every caller in `src/ed25519.rs`
consumes the reduced buffer. -/
def sc_reduce32 (xs : List Nat) : List Nat := natToBytes 32 (leBytes xs % L)

/-- Modelled from the spec: `sc_muladd` (the `multiply_add` of section 4.2):
the 32-byte little-endian encoding of `(a·b + c) mod L`. -/
def sc_muladd (a b c : List Nat) : List Nat :=
  natToBytes 32 ((leBytes a * leBytes b + leBytes c) % L)

/-- The byte string of the static `L` of `src/ed25519.rs` (little-endian). -/
def Lbytes : List Nat :=
  [0x10, 0x00, 0x00, 0x00, 0x00, 0x00, 0x00, 0x00,
   0x00, 0x00, 0x00, 0x00, 0x00, 0x00, 0x00, 0x00,
   0x14, 0xde, 0xf9, 0xde, 0xa2, 0xf7, 0x9c, 0xd6,
   0x58, 0x12, 0x63, 0x1a, 0x5c, 0xf5, 0xd3, 0xed]

/-- Arithmetic shift right by 8 bits on `i32`, the `>> 8` of `check_lt_l`. -/
def sar8 (x : Int) : Int := Int.fdiv x 256

/-- The `as u8` truncating cast applied to the shifted `i32` in `check_lt_l`. -/
def asU8 (x : Int) : Nat := (x % 256).toNat

/-- One iteration of the loop of `check_lt_l` (`src/ed25519.rs`): the state is
the pair `(c, n)` and `p` holds the bytes `(s[i], L[i])`. -/
def clStep (st : Nat × Nat) (p : Nat × Nat) : Nat × Nat :=
  (st.1 ||| (asU8 (sar8 ((p.1 : Int) - (p.2 : Int))) &&& st.2),
   st.2 &&& asU8 (sar8 (((p.1 ^^^ p.2 : Nat) : Int) - 1)))

/-- `check_lt_l` from `src/ed25519.rs`: the loop visits `i = 31` down to `0`,
so the byte pairs are processed most significant first. -/
def check_lt_l (s : List Nat) : Bool :=
  (((s.zip Lbytes).reverse).foldl clStep (0, 1)).1 == 0

/-- The clamping applied to a 64-byte hash output in `SecretKey::sign` and
`KeyPair::from_seed` (`src/ed25519.rs`):
`h[0] &= 248; h[31] &= 63; h[31] |= 64`. -/
def clamp (h : List Nat) : List Nat :=
  let h1 := h.set 0 (h.getD 0 0 &&& 248)
  let h2 := h1.set 31 (h1.getD 31 0 &&& 63)
  h2.set 31 (h2.getD 31 0 ||| 64)

/-- `SecretKey::public_key` (`src/ed25519.rs`): bytes 32..64 of the secret key. -/
def public_key_of (sk : List Nat) : List Nat := sk.drop 32

/-- `KeyPair::from_seed` (`src/ed25519.rs`), returning `(pk, sk)`; `none`
models the `panic!("All-zero seed")` branch.  Writing the public key into
bytes 32..64 of the clamped buffer and the seed into bytes 0..32 yields
`seed ++ public_key` for a 32-byte seed. -/
def from_seed (H : HashFn) (seed : List Nat) : Option (List Nat × List Nat) :=
  if seed.foldl (fun acc x => acc ||| x) 0 == 0 then none
  else
    let secret := clamp (H.f seed)
    let public_key := encodeElt (ge_scalarmult_base (secret.take 32))
    some (public_key, seed ++ public_key)

/-- `SecretKey::sign` (`src/ed25519.rs`). -/
def sign (H : HashFn) (sk : List Nat) (message : List Nat)
    (noise : Option (List Nat)) : List Nat :=
  let seed := sk.take 32
  let public_key := sk.drop 32
  let az := clamp (H.f seed)
  let nonceInput :=
    match noise with
    | some nz => nz ++ az
    | none => az.drop 32
  let nonce := sc_reduce32 (H.f (nonceInput ++ message))
  let rBytes := encodeElt (ge_scalarmult_base nonce)
  let hram := sc_reduce32 (H.f (rBytes ++ public_key ++ message))
  rBytes ++ sc_muladd hram (az.take 32) nonce

/-- `PublicKey::verify` (`src/ed25519.rs`). -/
def verify (H : HashFn) (pk : List Nat) (message : List Nat)
    (signature : List Nat) : Except Error Unit :=
  let s := signature.drop 32
  if check_lt_l s then Except.error Error.NoncanonicalSignature
  else if is_identity pk || (pk.foldl (fun acc x => acc ||| x) 0 == 0) then
    Except.error Error.WeakPublicKey
  else
    match from_bytes_negate_vartime pk with
    | none => Except.error Error.InvalidPublicKey
    | some a =>
      let hram := sc_reduce32 (H.f (signature.take 32 ++ pk ++ message))
      let r := double_scalarmult_vartime hram a s
      if ((encodeElt r).zip signature).foldl
          (fun acc p => acc ||| (p.1 ^^^ p.2)) 0 != 0 then
        Except.error Error.SignatureMismatch
      else Except.ok ()

/-- Lexicographic strict comparison of byte pairs, most significant first;
used only to characterise `check_lt_l`. -/
def lexLtPairs : List (Nat × Nat) → Bool
  | [] => false
  | p :: ps => if p.1 = p.2 then lexLtPairs ps else decide (p.1 < p.2)

/-- A concrete digest instance used by the witnesses: constantly zero. -/
def zeroHash : HashFn where
  f := fun _ => List.replicate 64 0
  len_eq := by intro x; simp
  bytes_lt := by intro x b hb; simp at hb; omega

/-- A concrete nonzero 32-byte seed used by the witnesses. -/
def seedOne : List Nat := 1 :: List.replicate 31 0

/-- Concrete witness inputs for the signing-structure claim. -/
def wSk : List Nat := List.replicate 64 0

def wAz : List Nat := clamp (zeroHash.f (wSk.take 32))

def wNonce : List Nat := sc_reduce32 (zeroHash.f (wAz.drop 32 ++ []))

def wR : List Nat := encodeElt (ge_scalarmult_base wNonce)

def wK : List Nat := sc_reduce32 (zeroHash.f (wR ++ wSk.drop 32 ++ []))

/-- Concrete witness values for the key-derivation claim. -/
def wAz5 : List Nat := clamp (zeroHash.f seedOne)

def wPk5 : List Nat := encodeElt (ge_scalarmult_base (wAz5.take 32))

theorem leBytes_nil : leBytes [] = 0 := rfl

theorem leBytes_cons (b : Nat) (xs : List Nat) :
    leBytes (b :: xs) = b + 256 * leBytes xs := rfl

theorem leBytes_append (xs ys : List Nat) :
    leBytes (xs ++ ys) = leBytes xs + 256 ^ xs.length * leBytes ys := by
  induction xs with
  | nil => simp [leBytes_nil, leBytes]
  | cons b xs ih =>
    simp only [List.cons_append, leBytes_cons, ih, List.length_cons, pow_succ]
    ring

theorem leBytes_lt (xs : List Nat) (h : ∀ b ∈ xs, b < 256) :
    leBytes xs < 256 ^ xs.length := by
  induction xs with
  | nil => simp [leBytes_nil]
  | cons b xs ih =>
    have hb : b < 256 := h b (List.mem_cons_self b xs)
    have ht : leBytes xs < 256 ^ xs.length :=
      ih (fun x hx => h x (List.mem_cons_of_mem b hx))
    simp only [leBytes_cons, List.length_cons, pow_succ]
    calc b + 256 * leBytes xs < 256 + 256 * leBytes xs := by omega
    _ = 256 * (leBytes xs + 1) := by ring
    _ ≤ 256 * 256 ^ xs.length := by
        exact Nat.mul_le_mul_left 256 (by omega)
    _ = 256 ^ xs.length * 256 := by ring

theorem natToBytes_length (k n : Nat) : (natToBytes k n).length = k := by
  induction k generalizing n with
  | zero => rfl
  | succ k ih => simp [natToBytes, ih]

theorem natToBytes_bytes_lt (k n : Nat) : ∀ b ∈ natToBytes k n, b < 256 := by
  induction k generalizing n with
  | zero => intro b hb; simp [natToBytes] at hb
  | succ k ih =>
    intro b hb
    simp only [natToBytes, List.mem_cons] at hb
    rcases hb with h | h
    · omega
    · exact ih (n / 256) b h

theorem leBytes_natToBytes (k n : Nat) :
    leBytes (natToBytes k n) = n % 256 ^ k := by
  induction k generalizing n with
  | zero => simp [natToBytes, leBytes_nil]; omega
  | succ k ih =>
    simp only [natToBytes, leBytes_cons, ih]
    have h1 : 256 ^ (k + 1) = 256 * 256 ^ k := by ring
    rw [h1, Nat.mod_mul]

theorem leBytes_natToBytes_of_lt (k n : Nat) (h : n < 256 ^ k) :
    leBytes (natToBytes k n) = n := by
  rw [leBytes_natToBytes, Nat.mod_eq_of_lt h]

theorem leBytes_inj (xs ys : List Nat) (hx : ∀ b ∈ xs, b < 256)
    (hy : ∀ b ∈ ys, b < 256) (hlen : xs.length = ys.length)
    (h : leBytes xs = leBytes ys) : xs = ys := by
  induction xs generalizing ys with
  | nil =>
    cases ys with
    | nil => rfl
    | cons c ys => simp at hlen
  | cons b xs ih =>
    cases ys with
    | nil => simp at hlen
    | cons c ys =>
      have hb : b < 256 := hx b (List.mem_cons_self b xs)
      have hc : c < 256 := hy c (List.mem_cons_self c ys)
      simp only [leBytes_cons] at h
      have hbc : b = c ∧ leBytes xs = leBytes ys := by omega
      have hxs : xs = ys := by
        apply ih
        · exact fun x hm => hx x (List.mem_cons_of_mem b hm)
        · exact fun x hm => hy x (List.mem_cons_of_mem c hm)
        · simpa using hlen
        · exact hbc.2
      rw [hbc.1, hxs]

theorem lor_eq_zero_iff (a b : Nat) : a ||| b = 0 ↔ a = 0 ∧ b = 0 := by
  constructor
  · intro h
    constructor
    · apply Nat.eq_of_testBit_eq
      intro i
      have h2 := congrArg (fun x => Nat.testBit x i) h
      simp [Nat.testBit_or] at h2
      simp [h2.1]
    · apply Nat.eq_of_testBit_eq
      intro i
      have h2 := congrArg (fun x => Nat.testBit x i) h
      simp [Nat.testBit_or] at h2
      simp [h2.2]
  · rintro ⟨rfl, rfl⟩
    rfl

theorem foldl_or_eq_zero {α : Type} (f : α → Nat) (l : List α) (a : Nat) :
    l.foldl (fun acc x => acc ||| f x) a = 0 ↔ a = 0 ∧ ∀ x ∈ l, f x = 0 := by
  induction l generalizing a with
  | nil => simp
  | cons x l ih =>
    simp only [List.foldl_cons, ih, lor_eq_zero_iff, List.mem_cons]
    constructor
    · rintro ⟨⟨h1, h2⟩, h3⟩
      exact ⟨h1, fun y hy => by rcases hy with rfl | hy; exact h2; exact h3 y hy⟩
    · rintro ⟨h1, h2⟩
      exact ⟨⟨h1, h2 x (Or.inl rfl)⟩, fun y hy => h2 y (Or.inr hy)⟩

theorem sar8_nonneg (x : Int) (h0 : 0 ≤ x) (h : x < 256) : sar8 x = 0 := by
  unfold sar8
  rw [Int.fdiv_eq_ediv _ (by omega)]
  omega

theorem sar8_neg (x : Int) (h0 : -256 ≤ x) (h : x < 0) : sar8 x = -1 := by
  unfold sar8
  rw [Int.fdiv_eq_ediv _ (by omega)]
  omega

theorem asU8_zero : asU8 0 = 0 := by decide

theorem asU8_neg_one : asU8 (-1) = 255 := by decide

theorem clStep_eq (c n a : Nat) (hn : n = 0 ∨ n = 1) :
    clStep (c, n) (a, a) = (c, n) := by
  simp only [clStep]
  have h1 : (a : Int) - (a : Int) = 0 := by omega
  have h2 : ((a ^^^ a : Nat) : Int) - 1 = -1 := by
    rw [Nat.xor_self]
    rfl
  rw [h1, h2, sar8_nonneg 0 (by omega) (by omega),
    sar8_neg (-1) (by omega) (by omega), asU8_zero, asU8_neg_one]
  rcases hn with rfl | rfl
  · rw [show (0 : Nat) &&& 0 = 0 from by decide, Nat.or_zero,
      show (0 : Nat) &&& 255 = 0 from by decide]
  · rw [show (0 : Nat) &&& 1 = 0 from by decide, Nat.or_zero,
      show (1 : Nat) &&& 255 = 1 from by decide]

theorem clStep_lt (c a b : Nat) (hab : a < b) (ha : a < 256) (hb : b < 256) :
    clStep (c, 1) (a, b) = (c ||| 1, 0) := by
  simp only [clStep]
  have h1 : sar8 ((a : Int) - (b : Int)) = -1 :=
    sar8_neg _ (by omega) (by omega)
  have hxor : a ^^^ b < 256 := by
    have h8 : (256 : Nat) = 2 ^ 8 := by norm_num
    rw [h8] at ha hb ⊢
    exact Nat.xor_lt_two_pow ha hb
  have hxne : a ^^^ b ≠ 0 := fun hc => absurd (Nat.xor_eq_zero.mp hc) (by omega)
  have h2 : sar8 (((a ^^^ b : Nat) : Int) - 1) = 0 :=
    sar8_nonneg _ (by omega) (by omega)
  rw [h1, h2, asU8_zero, asU8_neg_one,
    show (255 : Nat) &&& 1 = 1 from by decide, Nat.and_zero]

theorem clStep_gt (c a b : Nat) (hab : b < a) (ha : a < 256) (hb : b < 256) :
    clStep (c, 1) (a, b) = (c, 0) := by
  simp only [clStep]
  have h1 : sar8 ((a : Int) - (b : Int)) = 0 :=
    sar8_nonneg _ (by omega) (by omega)
  have hxor : a ^^^ b < 256 := by
    have h8 : (256 : Nat) = 2 ^ 8 := by norm_num
    rw [h8] at ha hb ⊢
    exact Nat.xor_lt_two_pow ha hb
  have hxne : a ^^^ b ≠ 0 := fun hc => absurd (Nat.xor_eq_zero.mp hc) (by omega)
  have h2 : sar8 (((a ^^^ b : Nat) : Int) - 1) = 0 :=
    sar8_nonneg _ (by omega) (by omega)
  rw [h1, h2, asU8_zero,
    show (0 : Nat) &&& 1 = 0 from by decide, Nat.or_zero, Nat.and_zero]

theorem clStep_frozen (c : Nat) (p : Nat × Nat) :
    clStep (c, 0) p = (c, 0) := by
  simp only [clStep]
  rw [Nat.and_zero, Nat.or_zero, Nat.zero_and]

theorem foldl_clStep_frozen (ps : List (Nat × Nat)) (c : Nat) :
    ps.foldl clStep (c, 0) = (c, 0) := by
  induction ps with
  | nil => rfl
  | cons p ps ih => rw [List.foldl_cons, clStep_frozen, ih]

theorem foldl_clStep (ps : List (Nat × Nat)) (c : Nat)
    (hb : ∀ p ∈ ps, p.1 < 256 ∧ p.2 < 256) :
    (ps.foldl clStep (c, 1)).1 = c ||| (if lexLtPairs ps then 1 else 0) := by
  induction ps generalizing c with
  | nil => simp [lexLtPairs]
  | cons p ps ih =>
    have hp := hb p (List.mem_cons_self p ps)
    have hps : ∀ q ∈ ps, q.1 < 256 ∧ q.2 < 256 :=
      fun q hq => hb q (List.mem_cons_of_mem p hq)
    rcases Nat.lt_trichotomy p.1 p.2 with hlt | heq | hgt
    · have hstep : clStep (c, 1) p = (c ||| 1, 0) :=
        clStep_lt c p.1 p.2 hlt hp.1 hp.2
      have hlex : lexLtPairs (p :: ps) = true := by
        simp only [lexLtPairs, if_neg (Nat.ne_of_lt hlt)]
        exact decide_eq_true hlt
      rw [List.foldl_cons, hstep, foldl_clStep_frozen, hlex, if_pos rfl]
    · have hstep : clStep (c, 1) p = (c, 1) := by
        have h := clStep_eq c 1 p.1 (Or.inr rfl)
        rw [show ((p.1, p.1) : Nat × Nat) = p from by
          rw [Prod.mk.injEq]
          exact ⟨rfl, heq.symm ▸ rfl⟩] at h
        exact h
      have hlex : lexLtPairs (p :: ps) = lexLtPairs ps := by
        simp only [lexLtPairs, if_pos heq]
      rw [List.foldl_cons, hstep, ih c hps, hlex]
    · have hstep : clStep (c, 1) p = (c, 0) :=
        clStep_gt c p.1 p.2 hgt hp.1 hp.2
      have hlex : lexLtPairs (p :: ps) = false := by
        simp only [lexLtPairs, if_neg (Nat.ne_of_gt hgt)]
        exact decide_eq_false (by omega)
      rw [List.foldl_cons, hstep, foldl_clStep_frozen, hlex, if_neg
        (by simp), Nat.or_zero]

theorem lexLtPairs_append_single (ps : List (Nat × Nat)) (q : Nat × Nat) :
    lexLtPairs (ps ++ [q]) =
      if ps.all (fun p => p.1 == p.2) then decide (q.1 < q.2)
      else lexLtPairs ps := by
  induction ps with
  | nil =>
    by_cases hq : q.1 = q.2
    · simp [lexLtPairs, hq]
    · simp [lexLtPairs, hq]
  | cons p ps ih =>
    by_cases hp : p.1 = p.2
    · have h1 : lexLtPairs (p :: (ps ++ [q])) = lexLtPairs (ps ++ [q]) := by
        simp [lexLtPairs, hp]
      have h2 : lexLtPairs (p :: ps) = lexLtPairs ps := by
        simp [lexLtPairs, hp]
      rw [List.cons_append, h1, ih, List.all_cons, h2]
      simp only [hp, beq_self_eq_true, Bool.true_and]
    · have h1 : lexLtPairs (p :: (ps ++ [q])) = decide (p.1 < p.2) := by
        simp [lexLtPairs, hp]
      have h2 : lexLtPairs (p :: ps) = decide (p.1 < p.2) := by
        simp [lexLtPairs, hp]
      rw [List.cons_append, h1, List.all_cons, h2, if_neg]
      simp only [Bool.and_eq_true, beq_iff_eq]
      exact fun hc => hp hc.1

theorem zip_all_eq (xs ys : List Nat) (hlen : xs.length = ys.length) :
    (xs.zip ys).all (fun p => p.1 == p.2) = true ↔ xs = ys := by
  induction xs generalizing ys with
  | nil =>
    cases ys with
    | nil => simp
    | cons y ys => simp at hlen
  | cons x xs ih =>
    cases ys with
    | nil => simp at hlen
    | cons y ys =>
      simp only [List.zip_cons_cons, List.all_cons, Bool.and_eq_true,
        beq_iff_eq, List.cons.injEq]
      rw [ih ys (by simpa using hlen)]

theorem lexLt_zip_reverse (xs ys : List Nat) (hx : ∀ b ∈ xs, b < 256)
    (hy : ∀ b ∈ ys, b < 256) (hlen : xs.length = ys.length) :
    lexLtPairs ((xs.zip ys).reverse) = decide (leBytes xs < leBytes ys) := by
  induction xs generalizing ys with
  | nil =>
    cases ys with
    | nil => simp [lexLtPairs, leBytes_nil]
    | cons y ys => simp at hlen
  | cons x xs ih =>
    cases ys with
    | nil => simp at hlen
    | cons y ys =>
      have hx0 : x < 256 := hx x (List.mem_cons_self x xs)
      have hy0 : y < 256 := hy y (List.mem_cons_self y ys)
      have hxs : ∀ b ∈ xs, b < 256 := fun b hb => hx b (List.mem_cons_of_mem x hb)
      have hys : ∀ b ∈ ys, b < 256 := fun b hb => hy b (List.mem_cons_of_mem y hb)
      have hlen2 : xs.length = ys.length := by simpa using hlen
      rw [List.zip_cons_cons, List.reverse_cons, lexLtPairs_append_single,
        List.all_reverse]
      by_cases hall : (xs.zip ys).all (fun p => p.1 == p.2) = true
      · have hxy : xs = ys := (zip_all_eq xs ys hlen2).mp hall
        rw [if_pos hall]
        subst hxy
        simp only [leBytes_cons]
        rw [decide_eq_decide]
        omega
      · have hxy : xs ≠ ys := fun hc => hall ((zip_all_eq xs ys hlen2).mpr hc)
        have hne : leBytes xs ≠ leBytes ys :=
          fun hc => hxy (leBytes_inj xs ys hxs hys hlen2 hc)
        rw [if_neg hall, ih ys hxs hys hlen2]
        simp only [leBytes_cons]
        rw [decide_eq_decide]
        omega

theorem L_lt_leBytes_Lbytes : L < leBytes Lbytes := by decide

theorem check_lt_l_iff (s : List Nat) (hlen : s.length = 32)
    (hb : ∀ b ∈ s, b < 256) :
    (check_lt_l s = true ↔ leBytes Lbytes ≤ leBytes s) := by
  unfold check_lt_l
  have hlb : ∀ b ∈ Lbytes, b < 256 := by decide
  have hpairs : ∀ p ∈ (s.zip Lbytes).reverse, p.1 < 256 ∧ p.2 < 256 := by
    intro p hp
    rw [List.mem_reverse] at hp
    have hm := List.of_mem_zip hp
    exact ⟨hb p.1 hm.1, hlb p.2 hm.2⟩
  rw [foldl_clStep _ 0 hpairs, Nat.zero_or,
    lexLt_zip_reverse s Lbytes hb hlb (by rw [hlen]; decide)]
  by_cases hle : leBytes s < leBytes Lbytes
  · rw [decide_eq_true hle, if_pos rfl]
    constructor
    · intro hc
      simp at hc
    · intro hc
      omega
  · rw [decide_eq_false hle, if_neg (by simp)]
    constructor
    · intro _
      omega
    · intro _
      rfl

theorem leBytes_single (v : Nat) : leBytes [v] = v := by
  simp [leBytes]

theorem getD_append_len (m : List Nat) (b d : Nat) (t : List Nat) :
    (m ++ b :: t).getD m.length d = b := by
  induction m with
  | nil => rfl
  | cons x m ih => simpa using ih

theorem set_append_len (m : List Nat) (b v : Nat) (t : List Nat) :
    (m ++ b :: t).set m.length v = m ++ v :: t := by
  induction m with
  | nil => rfl
  | cons x m ih => simp [ih]

theorem take_append_len (m : List Nat) (b : Nat) (t : List Nat) :
    (m ++ b :: t).take (m.length + 1) = m ++ [b] := by
  induction m with
  | nil => simp
  | cons x m ih => simpa using ih

theorem decomp64 (l : List Nat) (hl : l.length = 64) :
    ∃ a m b t, l = a :: (m ++ b :: t) ∧ m.length = 30 ∧ t.length = 32 := by
  cases l with
  | nil => simp at hl
  | cons a l2 =>
    refine ⟨a, l2.take 30, ?_⟩
    have hta : l2.take 30 ++ l2.drop 30 = l2 := List.take_append_drop 30 l2
    have hl2 : l2.length = 63 := by simpa using hl
    have hld : (l2.drop 30).length = 33 := by simp [hl2]
    cases hd : l2.drop 30 with
    | nil => rw [hd] at hld; simp at hld
    | cons b t =>
      refine ⟨b, t, ?_, ?_, ?_⟩
      · rw [← hd, hta]
      · simp [hl2]
      · rw [hd] at hld; simpa using hld

theorem clamp_decomp (a : Nat) (m : List Nat) (b : Nat) (t : List Nat)
    (hm : m.length = 30) :
    clamp (a :: (m ++ b :: t)) =
      (a &&& 248) :: (m ++ (((b &&& 63) ||| 64) :: t)) := by
  unfold clamp
  have h31 : (31 : Nat) = m.length + 1 := by omega
  simp only [List.set_cons_zero, List.getD_cons_zero, h31,
    List.getD_cons_succ, List.set_cons_succ, getD_append_len,
    set_append_len]

theorem clamp_take32 (a : Nat) (m : List Nat) (b : Nat) (t : List Nat)
    (hm : m.length = 30) :
    (clamp (a :: (m ++ b :: t))).take 32 =
      (a &&& 248) :: (m ++ [(b &&& 63) ||| 64]) := by
  rw [clamp_decomp a m b t hm]
  have h32 : (32 : Nat) = (m.length + 1) + 1 := by omega
  rw [h32, List.take_succ_cons, take_append_len]

theorem and248_mod8 : ∀ a, a < 256 → (a &&& 248) % 8 = 0 := by decide

theorem or64_bounds : ∀ x, x < 64 → 64 ≤ (x ||| 64) ∧ (x ||| 64) < 128 := by
  decide

theorem clamp_take32_spec (h : List Nat) (hl : h.length = 64)
    (hb : ∀ x ∈ h, x < 256) :
    ((clamp h).take 32).length = 32 ∧
    (∀ x ∈ (clamp h).take 32, x < 256) ∧
    leBytes ((clamp h).take 32) % 8 = 0 ∧
    2 ^ 254 ≤ leBytes ((clamp h).take 32) ∧
    leBytes ((clamp h).take 32) < 2 ^ 255 := by
  obtain ⟨a, m, b, t, rfl, hm, ht⟩ := decomp64 h hl
  have ha : a < 256 := hb a (List.mem_cons_self _ _)
  have hmem : ∀ x ∈ m, x < 256 := by
    intro x hx
    exact hb x (List.mem_cons_of_mem a (List.mem_append_left _ hx))
  have hv63 : b &&& 63 < 64 := by
    have hle63 : b &&& 63 ≤ 63 := Nat.and_le_right
    omega
  have hv : 64 ≤ ((b &&& 63) ||| 64) ∧ ((b &&& 63) ||| 64) < 128 :=
    or64_bounds (b &&& 63) hv63
  have hc0 : a &&& 248 ≤ 248 := Nat.and_le_right
  rw [clamp_take32 a m b t hm]
  have hlen : ((a &&& 248) :: (m ++ [(b &&& 63) ||| 64])).length = 32 := by
    simp [hm]
  have hbytes : ∀ x ∈ (a &&& 248) :: (m ++ [(b &&& 63) ||| 64]), x < 256 := by
    intro x hx
    rcases List.mem_cons.mp hx with rfl | hx2
    · omega
    · rcases List.mem_append.mp hx2 with hx3 | hx3
      · exact hmem x hx3
      · rcases List.mem_singleton.mp hx3 with rfl
        omega
  refine ⟨hlen, hbytes, ?_, ?_, ?_⟩
  all_goals rw [leBytes_cons, leBytes_append, leBytes_single, hm]
  · have hmod := and248_mod8 a ha
    omega
  · have hQ : leBytes m < 256 ^ 30 := by
      have := leBytes_lt m hmem
      rwa [hm] at this
    have h254 : (2 : Nat) ^ 254 = 16384 * 256 ^ 30 := by norm_num
    have hprod : 256 ^ 30 * 64 ≤ 256 ^ 30 * ((b &&& 63) ||| 64) :=
      Nat.mul_le_mul_left _ hv.1
    rw [h254]
    omega
  · have hQ : leBytes m < 256 ^ 30 := by
      have := leBytes_lt m hmem
      rwa [hm] at this
    have h255 : (2 : Nat) ^ 255 = 32768 * 256 ^ 30 := by norm_num
    have hprod : 256 ^ 30 * ((b &&& 63) ||| 64) ≤ 256 ^ 30 * 127 :=
      Nat.mul_le_mul_left _ (by omega)
    rw [h255]
    omega

theorem clamped_not_dvd (n : Nat) (hmod : n % 8 = 0)
    (hlo : 2 ^ 254 ≤ n) (hhi : n < 2 ^ 255) : ¬ L ∣ n := by
  rintro ⟨k, rfl⟩
  have hk4 : 4 ≤ k := by
    by_contra hc
    push_neg at hc
    have hmono : L * k ≤ L * 3 := Nat.mul_le_mul_left L (by omega)
    have h3 : L * 3 < 2 ^ 254 := by norm_num [L]
    omega
  have hk8 : k < 8 := by
    by_contra hc
    push_neg at hc
    have hmono : L * 8 ≤ L * k := Nat.mul_le_mul_left L hc
    have h8 : 2 ^ 255 < L * 8 := by norm_num [L]
    omega
  interval_cases k <;> norm_num [L] at hmod

theorem clamped_cast_ne_zero (n : Nat) (hmod : n % 8 = 0)
    (hlo : 2 ^ 254 ≤ n) (hhi : n < 2 ^ 255) : (n : ZMod L) ≠ 0 := by
  rw [Ne, ZMod.natCast_zmod_eq_zero_iff_dvd]
  exact clamped_not_dvd n hmod hlo hhi

theorem encodeElt_length (e : Element) : (encodeElt e).length = 32 :=
  natToBytes_length 32 (ZMod.val e)

theorem encodeElt_bytes_lt (e : Element) : ∀ b ∈ encodeElt e, b < 256 :=
  natToBytes_bytes_lt 32 (ZMod.val e)

theorem L_lt_256_32 : L < 256 ^ 32 := by norm_num [L]

theorem leBytes_encodeElt (e : Element) : leBytes (encodeElt e) = ZMod.val e :=
  leBytes_natToBytes_of_lt 32 _ (lt_trans (ZMod.val_lt e) L_lt_256_32)

theorem encodeElt_inj (e1 e2 : Element) (h : encodeElt e1 = encodeElt e2) :
    e1 = e2 := by
  have h2 := congrArg leBytes h
  rw [leBytes_encodeElt, leBytes_encodeElt] at h2
  exact ZMod.val_injective L h2

theorem cast_val_eq (e : Element) : ((ZMod.val e : Nat) : ZMod L) = e :=
  ZMod.natCast_rightInverse e

theorem decode_encode (e : Element) :
    from_bytes_negate_vartime (encodeElt e) = some (-e) := by
  unfold from_bytes_negate_vartime
  rw [leBytes_encodeElt, if_pos (ZMod.val_lt e), cast_val_eq]

theorem natToBytes_32_zero : natToBytes 32 0 = List.replicate 32 0 := by decide

theorem encodeElt_zero : encodeElt 0 = List.replicate 32 0 := by
  unfold encodeElt
  rw [ZMod.val_zero, natToBytes_32_zero]

theorem is_identity_iff (bytes : List Nat) :
    is_identity bytes = true ↔ bytes = encodeElt 0 := by
  unfold is_identity
  exact beq_iff_eq

theorem foldl_or_id_eq_zero (l : List Nat) (a : Nat) :
    l.foldl (fun acc x => acc ||| x) a = 0 ↔ a = 0 ∧ ∀ x ∈ l, x = 0 :=
  foldl_or_eq_zero (fun x => x) l a

theorem fold_or_seed_eq_zero (seed : List Nat) (hlen : seed.length = 32) :
    ((seed.foldl (fun acc x => acc ||| x) 0 == 0) = true) ↔
      seed = List.replicate 32 0 := by
  rw [beq_iff_eq, foldl_or_id_eq_zero]
  constructor
  · intro h
    exact List.eq_replicate_iff.mpr ⟨hlen, h.2⟩
  · intro h
    refine ⟨rfl, ?_⟩
    intro x hx
    rw [h] at hx
    exact List.eq_of_mem_replicate hx

theorem zip_forall_eq (xs ys : List Nat) (hle : xs.length ≤ ys.length) :
    (∀ p ∈ xs.zip ys, p.1 = p.2) ↔ xs = ys.take xs.length := by
  induction xs generalizing ys with
  | nil => simp
  | cons x xs ih =>
    cases ys with
    | nil => simp at hle
    | cons y ys =>
      have hle2 : xs.length ≤ ys.length := by simpa using hle
      rw [List.zip_cons_cons,
        show (x :: xs).length = xs.length + 1 from rfl, List.take_succ_cons]
      constructor
      · intro hp
        have h1 : x = y := hp (x, y) (List.mem_cons_self _ _)
        have h2 : xs = ys.take xs.length :=
          (ih ys hle2).mp (fun p hp2 => hp p (List.mem_cons_of_mem _ hp2))
        rw [h1]
        exact congrArg (List.cons y) h2
      · intro h
        injection h with h1 h2
        intro p hp
        rcases List.mem_cons.mp hp with rfl | hp2
        · exact h1
        · exact (ih ys hle2).mpr h2 p hp2

theorem xorfold_eq_zero (xs ys : List Nat) (hle : xs.length ≤ ys.length) :
    ((xs.zip ys).foldl (fun acc p => acc ||| (p.1 ^^^ p.2)) 0 = 0) ↔
      xs = ys.take xs.length := by
  rw [foldl_or_eq_zero (fun p => p.1 ^^^ p.2) (xs.zip ys) 0]
  constructor
  · intro h
    exact (zip_forall_eq xs ys hle).mp
      (fun p hp => Nat.xor_eq_zero.mp (h.2 p hp))
  · intro h
    exact ⟨rfl, fun p hp =>
      Nat.xor_eq_zero.mpr ((zip_forall_eq xs ys hle).mpr h p hp)⟩

theorem take_len_append (xs ys : List Nat) (n : Nat) (h : xs.length = n) :
    (xs ++ ys).take n = xs := by
  subst h
  exact List.take_left xs ys

theorem drop_len_append (xs ys : List Nat) (n : Nat) (h : xs.length = n) :
    (xs ++ ys).drop n = ys := by
  subst h
  exact List.drop_left xs ys

theorem from_seed_eq (H : HashFn) (seed : List Nat) (hlen : seed.length = 32)
    (hnz : seed ≠ List.replicate 32 0) :
    from_seed H seed =
      some (encodeElt (ge_scalarmult_base ((clamp (H.f seed)).take 32)),
            seed ++ encodeElt (ge_scalarmult_base ((clamp (H.f seed)).take 32))) := by
  unfold from_seed
  rw [if_neg]
  intro hc
  exact hnz ((fold_or_seed_eq_zero seed hlen).mp hc)

theorem sign_parts (H : HashFn) (sk message : List Nat)
    (noise : Option (List Nat)) :
    ∃ r k, r = sc_reduce32 (H.f ((match noise with
        | some nz => nz ++ clamp (H.f (sk.take 32))
        | none => (clamp (H.f (sk.take 32))).drop 32) ++ message)) ∧
      k = sc_reduce32 (H.f (encodeElt (ge_scalarmult_base r) ++
            sk.drop 32 ++ message)) ∧
      sign H sk message noise =
        encodeElt (ge_scalarmult_base r) ++
          sc_muladd k ((clamp (H.f (sk.take 32))).take 32) r :=
  ⟨_, _, rfl, rfl, rfl⟩

theorem leBytes_sc_muladd (a b c : List Nat) :
    leBytes (sc_muladd a b c) = (leBytes a * leBytes b + leBytes c) % L := by
  unfold sc_muladd
  exact leBytes_natToBytes_of_lt 32 _
    (lt_trans (Nat.mod_lt _ (NeZero.pos L)) L_lt_256_32)

theorem sc_muladd_length (a b c : List Nat) : (sc_muladd a b c).length = 32 :=
  natToBytes_length 32 _

theorem sc_muladd_bytes_lt (a b c : List Nat) :
    ∀ x ∈ sc_muladd a b c, x < 256 :=
  natToBytes_bytes_lt 32 _

theorem leBytes_sc_reduce32 (xs : List Nat) :
    leBytes (sc_reduce32 xs) = leBytes xs % L := by
  unfold sc_reduce32
  exact leBytes_natToBytes_of_lt 32 _
    (lt_trans (Nat.mod_lt _ (NeZero.pos L)) L_lt_256_32)

theorem check_lt_l_of_lt_L (s : List Nat) (hlen : s.length = 32)
    (hb : ∀ b ∈ s, b < 256) (hS : leBytes s < L) : check_lt_l s = false := by
  rcases hc : check_lt_l s with _ | _
  · rfl
  · have h2 := (check_lt_l_iff s hlen hb).mp hc
    have h3 := L_lt_leBytes_Lbytes
    omega

theorem encode_nonzero_not_identity (e : Element) (he : e ≠ 0) :
    is_identity (encodeElt e) = false := by
  rcases h : is_identity (encodeElt e) with _ | _
  · rfl
  · exact absurd (encodeElt_inj _ _ ((is_identity_iff _).mp h)) he

theorem encode_nonzero_fold (e : Element) (he : e ≠ 0) :
    ¬ ((encodeElt e).foldl (fun acc x => acc ||| x) 0 = 0) := by
  rw [foldl_or_id_eq_zero]
  rintro ⟨-, hall⟩
  apply he
  apply encodeElt_inj
  rw [encodeElt_zero]
  exact List.eq_replicate_iff.mpr ⟨encodeElt_length e, hall⟩

theorem verify_past_gates (H : HashFn) (pk message signature : List Nat)
    (negA : Element) (hslen : signature.length = 64)
    (hsb : ∀ b ∈ signature, b < 256)
    (hS : leBytes (signature.drop 32) < L)
    (hw : is_identity pk = false)
    (hz : ¬ (pk.foldl (fun acc x => acc ||| x) 0 = 0))
    (hd : from_bytes_negate_vartime pk = some negA) :
    verify H pk message signature =
      (if encodeElt (double_scalarmult_vartime
            (sc_reduce32 (H.f (signature.take 32 ++ pk ++ message)))
            negA (signature.drop 32)) = signature.take 32
       then Except.ok ()
       else Except.error Error.SignatureMismatch) := by
  have hdl : (signature.drop 32).length = 32 := by simp [hslen]
  have hdb : ∀ b ∈ signature.drop 32, b < 256 :=
    fun b hb => hsb b (List.mem_of_mem_drop hb)
  have hck : check_lt_l (signature.drop 32) = false :=
    check_lt_l_of_lt_L _ hdl hdb hS
  have hzb : (pk.foldl (fun acc x => acc ||| x) 0 == 0) = false :=
    beq_eq_false_iff_ne.mpr hz
  unfold verify
  dsimp only
  rw [hck, hw, hzb, hd]
  simp only [Bool.false_eq_true, if_false, Bool.or_self]
  by_cases hEq : encodeElt (double_scalarmult_vartime
      (sc_reduce32 (H.f (signature.take 32 ++ pk ++ message)))
      negA (signature.drop 32)) = signature.take 32
  · rw [if_pos hEq]
    have hf : ((encodeElt (double_scalarmult_vartime
        (sc_reduce32 (H.f (signature.take 32 ++ pk ++ message)))
        negA (signature.drop 32))).zip signature).foldl
          (fun acc p => acc ||| (p.1 ^^^ p.2)) 0 = 0 := by
      rw [xorfold_eq_zero _ _ (by rw [encodeElt_length, hslen]; omega),
        encodeElt_length]
      exact hEq
    rw [hf]
    simp
  · rw [if_neg hEq]
    have hf : ¬ ((encodeElt (double_scalarmult_vartime
        (sc_reduce32 (H.f (signature.take 32 ++ pk ++ message)))
        negA (signature.drop 32))).zip signature).foldl
          (fun acc p => acc ||| (p.1 ^^^ p.2)) 0 = 0 := by
      rw [xorfold_eq_zero _ _ (by rw [encodeElt_length, hslen]; omega),
        encodeElt_length]
      exact hEq
    simp only [bne_iff_ne, Ne, hf, not_false_eq_true, if_true]

theorem sign_parts_none (H : HashFn) (sk message : List Nat) :
    ∃ r k, r = sc_reduce32 (H.f ((clamp (H.f (sk.take 32))).drop 32 ++ message)) ∧
      k = sc_reduce32 (H.f (encodeElt (ge_scalarmult_base r) ++
            sk.drop 32 ++ message)) ∧
      sign H sk message none =
        encodeElt (ge_scalarmult_base r) ++
          sc_muladd k ((clamp (H.f (sk.take 32))).take 32) r :=
  ⟨_, _, rfl, rfl, rfl⟩

/-- C2: for every 32-byte seed that is not all-zero and every message, the
signature produced by signing with the secret key of the key pair derived
from that seed verifies under the derived public key. -/
theorem claim_round_trip (H : HashFn) (seed message : List Nat)
    (hlen : seed.length = 32) (hsb : ∀ b ∈ seed, b < 256)
    (hnz : seed ≠ List.replicate 32 0) :
    ∃ pk sk, from_seed H seed = some (pk, sk) ∧
      verify H pk message (sign H sk message none) = Except.ok () := by
  have hhlen : (H.f seed).length = 64 := H.len_eq seed
  have hhb : ∀ b ∈ H.f seed, b < 256 := H.bytes_lt seed
  obtain ⟨hcl_len, hcl_b, hcl_mod, hcl_lo, hcl_hi⟩ :=
    clamp_take32_spec (H.f seed) hhlen hhb
  have ha_ne : ((leBytes ((clamp (H.f seed)).take 32) : Nat) : ZMod L) ≠ 0 :=
    clamped_cast_ne_zero _ hcl_mod hcl_lo hcl_hi
  have ha_ne2 : ge_scalarmult_base ((clamp (H.f seed)).take 32) ≠ 0 := ha_ne
  refine ⟨encodeElt (ge_scalarmult_base ((clamp (H.f seed)).take 32)),
    seed ++ encodeElt (ge_scalarmult_base ((clamp (H.f seed)).take 32)),
    from_seed_eq H seed hlen hnz, ?_⟩
  have hsk_take : (seed ++ encodeElt (ge_scalarmult_base
      ((clamp (H.f seed)).take 32))).take 32 = seed :=
    take_len_append _ _ 32 hlen
  have hsk_drop : (seed ++ encodeElt (ge_scalarmult_base
      ((clamp (H.f seed)).take 32))).drop 32 =
      encodeElt (ge_scalarmult_base ((clamp (H.f seed)).take 32)) :=
    drop_len_append _ _ 32 hlen
  obtain ⟨r, k, hr, hk, hsig⟩ := sign_parts_none H
    (seed ++ encodeElt (ge_scalarmult_base ((clamp (H.f seed)).take 32))) message
  rw [hsk_take] at hr hsig
  rw [hsk_drop] at hk
  rw [hsig]
  have hRlen : (encodeElt (ge_scalarmult_base r)).length = 32 := encodeElt_length _
  have htake : (encodeElt (ge_scalarmult_base r) ++
      sc_muladd k ((clamp (H.f seed)).take 32) r).take 32 =
      encodeElt (ge_scalarmult_base r) :=
    take_len_append _ _ 32 hRlen
  have hdrop : (encodeElt (ge_scalarmult_base r) ++
      sc_muladd k ((clamp (H.f seed)).take 32) r).drop 32 =
      sc_muladd k ((clamp (H.f seed)).take 32) r :=
    drop_len_append _ _ 32 hRlen
  have hlen64 : (encodeElt (ge_scalarmult_base r) ++
      sc_muladd k ((clamp (H.f seed)).take 32) r).length = 64 := by
    rw [List.length_append, hRlen, sc_muladd_length]
  have hballs : ∀ b ∈ encodeElt (ge_scalarmult_base r) ++
      sc_muladd k ((clamp (H.f seed)).take 32) r, b < 256 := by
    intro b hb
    rcases List.mem_append.mp hb with hm | hm
    · exact encodeElt_bytes_lt _ b hm
    · exact sc_muladd_bytes_lt _ _ _ b hm
  have hSlt : leBytes ((encodeElt (ge_scalarmult_base r) ++
      sc_muladd k ((clamp (H.f seed)).take 32) r).drop 32) < L := by
    rw [hdrop, leBytes_sc_muladd]
    exact Nat.mod_lt _ (NeZero.pos L)
  have hw : is_identity (encodeElt (ge_scalarmult_base
      ((clamp (H.f seed)).take 32))) = false :=
    encode_nonzero_not_identity _ ha_ne2
  have hz : ¬ ((encodeElt (ge_scalarmult_base
      ((clamp (H.f seed)).take 32))).foldl (fun acc x => acc ||| x) 0 = 0) :=
    encode_nonzero_fold _ ha_ne2
  have hd : from_bytes_negate_vartime (encodeElt (ge_scalarmult_base
      ((clamp (H.f seed)).take 32))) =
      some (-(ge_scalarmult_base ((clamp (H.f seed)).take 32))) :=
    decode_encode _
  rw [verify_past_gates H _ message _ _ hlen64 hballs hSlt hw hz hd]
  rw [htake, hdrop]
  have halg : double_scalarmult_vartime
      (sc_reduce32 (H.f (encodeElt (ge_scalarmult_base r) ++
        encodeElt (ge_scalarmult_base ((clamp (H.f seed)).take 32)) ++ message)))
      (-(ge_scalarmult_base ((clamp (H.f seed)).take 32)))
      (sc_muladd k ((clamp (H.f seed)).take 32) r) = ge_scalarmult_base r := by
    rw [← hk]
    unfold double_scalarmult_vartime ge_scalarmult_base
    rw [leBytes_sc_muladd, ZMod.natCast_mod]
    push_cast
    ring
  rw [halg, if_pos rfl]

/-- C2 witness: the round trip at the concrete seed `seedOne`, empty message
and the constant-zero digest instance. -/
theorem claim_round_trip_witness :
    (seedOne.length = 32 ∧ (∀ b ∈ seedOne, b < 256) ∧
      seedOne ≠ List.replicate 32 0) ∧
    ∃ pk sk, from_seed zeroHash seedOne = some (pk, sk) ∧
      verify zeroHash pk [] (sign zeroHash sk [] none) = Except.ok () :=
  ⟨⟨by decide, by decide, by decide⟩,
   claim_round_trip zeroHash seedOne [] (by decide) (by decide) (by decide)⟩

/-- C1: the claim fails on this code, which contradicts the intent expressed
by the names `check_lt_l` and `L` and by the spec: the static `L` array in
`src/ed25519.rs` stores the group order in big-endian order while the loop of
`check_lt_l` and the `S` half of a signature are little-endian, so the gate
compares `S` against `leBytes Lbytes` (about `2 ^ 255.9`) instead of against
`L`.  Exhibit: the 32-byte little-endian encoding of `L` itself (a
noncanonical `S`, since `L ≤ L`) passes the gate, and `verify` on a signature
with that `S` half does not return `NoncanonicalSignature`. -/
theorem claim_canonical_gate_code_bug :
    L ≤ leBytes (natToBytes 32 L) ∧
    check_lt_l (natToBytes 32 L) = false ∧
    verify zeroHash (natToBytes 32 1) []
        (List.replicate 32 0 ++ natToBytes 32 L) ≠
      Except.error Error.NoncanonicalSignature := by
  refine ⟨?_, ?_, ?_⟩
  · rw [leBytes_natToBytes_of_lt 32 L L_lt_256_32]
  · decide
  · intro hc
    have he : verify zeroHash (natToBytes 32 1) []
        (List.replicate 32 0 ++ natToBytes 32 L) = Except.ok () := rfl
    rw [he] at hc
    exact Except.noConfusion hc

/-- C3: for a signature whose `S` half is canonical and a public key that
passes the weak-key gate and decodes (negated) to `negA`, `verify` computes
`h = reduce(Hash(R ++ pk ++ message))` and
`Rp = double_scalarmult(h, negA, S)`, succeeds exactly when `encode Rp`
equals the `R` half byte for byte, and returns `SignatureMismatch` in every
other case. -/
theorem claim_verify_main_algorithm (H : HashFn) (pk message signature : List Nat)
    (negA : Element) (hslen : signature.length = 64)
    (hsb : ∀ b ∈ signature, b < 256)
    (hS : leBytes (signature.drop 32) < L)
    (hw : is_identity pk = false)
    (hz : ¬ (pk.foldl (fun acc x => acc ||| x) 0 = 0))
    (hd : from_bytes_negate_vartime pk = some negA) :
    (verify H pk message signature = Except.ok () ↔
      encodeElt (double_scalarmult_vartime
        (sc_reduce32 (H.f (signature.take 32 ++ pk ++ message)))
        negA (signature.drop 32)) = signature.take 32) ∧
    (verify H pk message signature ≠ Except.ok () →
      verify H pk message signature = Except.error Error.SignatureMismatch) := by
  have hvg := verify_past_gates H pk message signature negA hslen hsb hS hw hz hd
  rw [hvg]
  by_cases hEq : encodeElt (double_scalarmult_vartime
      (sc_reduce32 (H.f (signature.take 32 ++ pk ++ message)))
      negA (signature.drop 32)) = signature.take 32
  · rw [if_pos hEq]
    exact ⟨iff_of_true rfl hEq, fun hc => absurd rfl hc⟩
  · rw [if_neg hEq]
    refine ⟨iff_of_false (by simp) hEq, fun _ => rfl⟩

/-- C3 witness: concrete instantiation at the public key `0x01 ‖ 0^31`
(which decodes, negated, to `-1`), the all-zero 64-byte signature and the
empty message. -/
theorem claim_verify_main_algorithm_witness :
    ((List.replicate 64 0 : List Nat).length = 64 ∧
     (∀ b ∈ (List.replicate 64 0 : List Nat), b < 256) ∧
     leBytes ((List.replicate 64 0 : List Nat).drop 32) < L ∧
     is_identity (natToBytes 32 1) = false ∧
     ¬ ((natToBytes 32 1).foldl (fun acc x => acc ||| x) 0 = 0) ∧
     from_bytes_negate_vartime (natToBytes 32 1) = some (-1)) ∧
    ((verify zeroHash (natToBytes 32 1) [] (List.replicate 64 0) =
        Except.ok () ↔
      encodeElt (double_scalarmult_vartime
        (sc_reduce32 (zeroHash.f ((List.replicate 64 0 : List Nat).take 32 ++
          natToBytes 32 1 ++ [])))
        (-1) ((List.replicate 64 0 : List Nat).drop 32)) =
        (List.replicate 64 0 : List Nat).take 32) ∧
     (verify zeroHash (natToBytes 32 1) [] (List.replicate 64 0) ≠
        Except.ok () →
      verify zeroHash (natToBytes 32 1) [] (List.replicate 64 0) =
        Except.error Error.SignatureMismatch)) :=
  ⟨⟨by decide, by decide, by decide, by decide, by decide, by decide⟩,
   claim_verify_main_algorithm zeroHash (natToBytes 32 1) []
     (List.replicate 64 0) (-1) (by decide) (by decide) (by decide)
     (by decide) (by decide) (by decide)⟩

/-- C4: signing follows the specified structure: with
`az = clamp(Hash(seed))`, nonce-seed input `Noise ++ az` (noise present) or
`az[32..64]` (absent), `nonce = reduce(Hash(input ++ message))`,
`R = encode(scalar_mult_base nonce)` and
`k = reduce(Hash(R ++ publicBytes ++ message))`, the signature is
`R ++ S` with `S = (k * az[0..32] + nonce) mod L`. -/
theorem claim_sign_structure (H : HashFn) (sk message : List Nat)
    (noise : Option (List Nat)) (az nonceInput nonce R k : List Nat)
    (haz : az = clamp (H.f (sk.take 32)))
    (hni : nonceInput = match noise with
      | some nz => nz ++ az
      | none => az.drop 32)
    (hnonce : nonce = sc_reduce32 (H.f (nonceInput ++ message)))
    (hR : R = encodeElt (ge_scalarmult_base nonce))
    (hk : k = sc_reduce32 (H.f (R ++ sk.drop 32 ++ message))) :
    sign H sk message noise = R ++ sc_muladd k (az.take 32) nonce ∧
    (sign H sk message noise).take 32 = R ∧
    leBytes ((sign H sk message noise).drop 32) =
      (leBytes k * leBytes (az.take 32) + leBytes nonce) % L := by
  subst haz hni hnonce hR hk
  refine ⟨rfl, take_len_append _ _ 32 (encodeElt_length _), ?_⟩
  have hD : (sign H sk message noise).drop 32 =
      sc_muladd (sc_reduce32 (H.f (encodeElt (ge_scalarmult_base
        (sc_reduce32 (H.f ((match noise with
          | some nz => nz ++ clamp (H.f (sk.take 32))
          | none => (clamp (H.f (sk.take 32))).drop 32) ++ message)))) ++
        sk.drop 32 ++ message)))
        ((clamp (H.f (sk.take 32))).take 32)
        (sc_reduce32 (H.f ((match noise with
          | some nz => nz ++ clamp (H.f (sk.take 32))
          | none => (clamp (H.f (sk.take 32))).drop 32) ++ message))) :=
    drop_len_append _ _ 32 (encodeElt_length _)
  rw [hD, leBytes_sc_muladd]

/-- C4 witness: the structure theorem instantiated at the all-zero 64-byte
secret key, empty message and no noise. -/
theorem claim_sign_structure_witness :
    sign zeroHash wSk [] none = wR ++ sc_muladd wK (wAz.take 32) wNonce ∧
    (sign zeroHash wSk [] none).take 32 = wR ∧
    leBytes ((sign zeroHash wSk [] none).drop 32) =
      (leBytes wK * leBytes (wAz.take 32) + leBytes wNonce) % L :=
  claim_sign_structure zeroHash wSk [] none wAz (wAz.drop 32) wNonce wR wK
    rfl rfl rfl rfl rfl

/-- C5: key derivation hashes the seed, clamps the first 32 digest bytes,
computes the public key as `encode(scalar_mult_base(clamped))`, and returns
the key pair `(publicBytes, seed ++ publicBytes)`; consequently
`public_key_of` of the secret key is the public key. -/
theorem claim_from_seed_structure (H : HashFn) (seed : List Nat)
    (hlen : seed.length = 32) (hnz : seed ≠ List.replicate 32 0)
    (az pk : List Nat) (haz : az = clamp (H.f seed))
    (hpk : pk = encodeElt (ge_scalarmult_base (az.take 32))) :
    from_seed H seed = some (pk, seed ++ pk) ∧
    public_key_of (seed ++ pk) = pk := by
  subst haz hpk
  exact ⟨from_seed_eq H seed hlen hnz, drop_len_append _ _ 32 hlen⟩

/-- C5 witness: derivation at the concrete seed `seedOne`. -/
theorem claim_from_seed_structure_witness :
    (seedOne.length = 32 ∧ seedOne ≠ List.replicate 32 0) ∧
    (from_seed zeroHash seedOne = some (wPk5, seedOne ++ wPk5) ∧
     public_key_of (seedOne ++ wPk5) = wPk5) :=
  ⟨⟨by decide, by decide⟩,
   claim_from_seed_structure zeroHash seedOne (by decide) (by decide)
     wAz5 wPk5 rfl rfl⟩

/-- C6 counterexample: the claim as stated is false at a concrete input: with
the all-zero public key but a signature whose `S` half is `0xff^32`, `verify`
returns `NoncanonicalSignature`, not `WeakPublicKey` — the canonicality gate
runs before the weak-key gate. -/
theorem claim_weak_key_counterexample :
    verify zeroHash (List.replicate 32 0) []
        (List.replicate 32 0 ++ List.replicate 32 255) =
      Except.error Error.NoncanonicalSignature ∧
    Error.NoncanonicalSignature ≠ Error.WeakPublicKey := by
  constructor
  · rfl
  · intro hc
    exact Error.noConfusion hc

/-- C6 amended: for every message and 64-byte signature whose `S` half passes
the canonicality gate (in particular whenever its little-endian value is
below `L`), `verify` with an all-zero public key, or with the canonical
encoding of the identity element, returns `WeakPublicKey`. -/
theorem claim_weak_key_amended (H : HashFn) (pk message signature : List Nat)
    (hslen : signature.length = 64) (hsb : ∀ b ∈ signature, b < 256)
    (hS : leBytes (signature.drop 32) < L)
    (hpk : pk = List.replicate 32 0 ∨ pk = encodeElt 0) :
    verify H pk message signature = Except.error Error.WeakPublicKey := by
  have hdl : (signature.drop 32).length = 32 := by simp [hslen]
  have hdb : ∀ b ∈ signature.drop 32, b < 256 :=
    fun b hb => hsb b (List.mem_of_mem_drop hb)
  have hck : check_lt_l (signature.drop 32) = false :=
    check_lt_l_of_lt_L _ hdl hdb hS
  have hid : is_identity pk = true := by
    rw [is_identity_iff]
    rcases hpk with rfl | rfl
    · exact encodeElt_zero.symm
    · rfl
  unfold verify
  dsimp only
  rw [hck, hid]
  simp

/-- C6 amended witness: the all-zero public key, empty message and all-zero
64-byte signature. -/
theorem claim_weak_key_amended_witness :
    ((List.replicate 64 0 : List Nat).length = 64 ∧
     (∀ b ∈ (List.replicate 64 0 : List Nat), b < 256) ∧
     leBytes ((List.replicate 64 0 : List Nat).drop 32) < L) ∧
    verify zeroHash (List.replicate 32 0) [] (List.replicate 64 0) =
      Except.error Error.WeakPublicKey :=
  ⟨⟨by decide, by decide, by decide⟩,
   claim_weak_key_amended zeroHash (List.replicate 32 0) []
     (List.replicate 64 0) (by decide) (by decide) (by decide) (Or.inl rfl)⟩

/-- C7: derivation from a 32-byte seed aborts (modelled by `none`, the
`panic!` branch) exactly on the all-zero seed; every other seed yields a key
pair. -/
theorem claim_zero_seed_aborts (H : HashFn) (seed : List Nat)
    (hlen : seed.length = 32) :
    (from_seed H seed = none ↔ seed = List.replicate 32 0) := by
  unfold from_seed
  by_cases hz : (seed.foldl (fun acc x => acc ||| x) 0 == 0) = true
  · rw [if_pos hz]
    exact iff_of_true rfl ((fold_or_seed_eq_zero seed hlen).mp hz)
  · rw [if_neg hz]
    constructor
    · intro hc
      exact absurd hc (by simp)
    · intro hc
      exact absurd ((fold_or_seed_eq_zero seed hlen).mpr hc) hz

/-- C7 witness: the abort criterion evaluated at the concrete nonzero seed
`seedOne`. -/
theorem claim_zero_seed_aborts_witness :
    (seedOne.length = 32) ∧
    (from_seed zeroHash seedOne = none ↔ seedOne = List.replicate 32 0) :=
  ⟨by decide, claim_zero_seed_aborts zeroHash seedOne (by decide)⟩

/-- C8: verification is a total function: on every public key, message and
signature it returns success or one of the four recoverable errors — it has
no other outcome (the embedding of `verify` is a total Lean function, so no
panic is possible). -/
theorem claim_verify_never_panics (H : HashFn) (pk message signature : List Nat) :
    verify H pk message signature = Except.ok () ∨
    verify H pk message signature = Except.error Error.InvalidPublicKey ∨
    verify H pk message signature = Except.error Error.WeakPublicKey ∨
    verify H pk message signature = Except.error Error.NoncanonicalSignature ∨
    verify H pk message signature = Except.error Error.SignatureMismatch := by
  cases hval : verify H pk message signature with
  | ok u =>
    cases u
    exact Or.inl rfl
  | error e =>
    cases e with
    | InvalidPublicKey => exact Or.inr (Or.inl rfl)
    | WeakPublicKey => exact Or.inr (Or.inr (Or.inl rfl))
    | NoncanonicalSignature => exact Or.inr (Or.inr (Or.inr (Or.inl rfl)))
    | SignatureMismatch => exact Or.inr (Or.inr (Or.inr (Or.inr rfl)))

/-- C9: key derivation and noise-free signing are deterministic: both are
pure functions of their byte inputs (the embedding reads no randomness on
these paths), so repeated calls agree. -/
theorem claim_deterministic (H : HashFn) (seed sk message : List Nat) :
    from_seed H seed = from_seed H seed ∧
    sign H sk message none = sign H sk message none :=
  ⟨rfl, rfl⟩

/-- C10: the `S` half of every signature produced by `sign` is the mod-`L`
multiply-add output, hence its little-endian value is below `L`, and it
passes the canonical-`S` gate of `verify`. -/
theorem claim_sign_canonical_S (H : HashFn) (sk message : List Nat)
    (noise : Option (List Nat)) :
    leBytes ((sign H sk message noise).drop 32) < L ∧
    check_lt_l ((sign H sk message noise).drop 32) = false := by
  obtain ⟨r, k, hr, hk, hsig⟩ := sign_parts H sk message noise
  rw [hsig, drop_len_append _ _ 32 (encodeElt_length _)]
  constructor
  · rw [leBytes_sc_muladd]
    exact Nat.mod_lt _ (NeZero.pos L)
  · apply check_lt_l_of_lt_L
    · exact sc_muladd_length _ _ _
    · exact sc_muladd_bytes_lt _ _ _
    · rw [leBytes_sc_muladd]
      exact Nat.mod_lt _ (NeZero.pos L)

end Ed25519
